import Mathlib

/-!
Shallow embedding of the `split_last` crate (`src/lib.rs`).

The crate provides one operation, `split_last`, on string slices: strip at
most one trailing occurrence of a pattern, split the remaining text on the
pattern, and return the last segment, or a `SplitError` when no segments
exist.  Patterns are modelled as literal character sequences (a Rust `char`
pattern is a one-character sequence); text is modelled as its character
sequence.
-/

/-- The character sequence of a Rust `&str`. -/
abbrev Str := List Char

/-- Characters of a string literal, for writing concrete inputs. -/
def chars (s : String) : Str := s.data

/-- Rust `Pattern::strip_suffix_of` for a literal pattern: when the text ends
with an occurrence of the pattern, the text with that one trailing occurrence
removed; otherwise `none`. -/
def strip_suffix_of (pat text : Str) : Option Str :=
  if List.IsSuffix pat text then some (text.take (text.length - pat.length)) else none

/-- Leftmost non-overlapping splitting of a text on a non-empty literal
pattern `sep`: the semantics of Rust `str::split` for a non-empty pattern.
`fuel` only bounds the recursion depth (the scan consumes at least one
character per step); any `fuel ≥ length of the text` computes the split.
The `fuel = 0` fallback arm is unreachable under that bound. -/
def split_fuel (sep : Str) : Nat → Str → List Str
  | _, [] => [[]]
  | 0, l => [l]
  | fuel + 1, c :: rest =>
    if sep ≠ [] ∧ List.IsPrefix sep (c :: rest) then
      [] :: split_fuel sep fuel (rest.drop (sep.length - 1))
    else
      match split_fuel sep fuel rest with
      | [] => [[c]]
      | s :: ss => (c :: s) :: ss

/-- Rust `str::split` for a literal pattern.  A non-empty pattern splits at
its leftmost non-overlapping occurrences; the empty pattern matches at every
character boundary, yielding an empty segment, each character as a singleton
segment, and a final empty segment. -/
def split_pat (sep l : Str) : List Str :=
  if sep = [] then [] :: (l.map (fun c => [c]) ++ [[]])
  else split_fuel sep l.length l

/-- Rust `SplitError`, a tuple struct carrying the displayed message
(`SplitError(pub String)`). -/
structure SplitError where
  msg : String
deriving DecidableEq

/-- Rust `Display for SplitError`: `write!(f, "{}", self.0)`, the stored
message verbatim (user-facing output). -/
def SplitError.display (e : SplitError) : String := e.msg

/-- Rust `Debug for SplitError`:
`write!(f, "{{ file: {}, line: {}, error: {}}}", file!(), line!(), self.0)`.
The `file!()` and `line!()` macros expand at their own source position inside
the `Debug` implementation — `src/lib.rs`, line 53 — so the rendered location
is a compile-time constant of the formatting code, independent of where the
error value was created. -/
def SplitError.debugFmt (e : SplitError) : String :=
  "\x7b file: src/lib.rs, line: 53, error: " ++ e.msg ++ "\x7d"

/-- Modelled from the spec: the diagnostic rendering the spec describes,
carrying "the source location where the error was raised — file and line of
the failing operation".  The only raise site in the crate is the
`ok_or_else` call at `src/lib.rs` line 96. -/
def SplitError.debugSpec (e : SplitError) : String :=
  "\x7b file: src/lib.rs, line: 96, error: " ++ e.msg ++ "\x7d"

/-- The working text of `split_last`: the input with one trailing pattern
occurrence stripped when present (`match pat.strip_suffix_of(self)`). -/
def split_last_target (text pat : Str) : Str :=
  match strip_suffix_of pat text with
  | some target => target
  | none => text

/-- `<&str as SplitLast>::split_last`: strip one trailing occurrence of the
pattern if present, split on the pattern, and return the last segment, or
`SplitError("Failed to split")` when the split yields no segments
(`target.split(pat).last().ok_or_else(...)`). -/
def split_last (text pat : Str) : Except SplitError Str :=
  match (split_pat pat (split_last_target text pat)).getLast? with
  | some s => Except.ok s
  | none => Except.error ⟨"Failed to split"⟩

deriving instance DecidableEq for Except

/-! ### Basic facts about the trailing strip -/

/-- Taking everything but the last `pat.length` characters of `u ++ pat`
recovers `u`. -/
theorem take_sub_length_append (u pat : Str) :
    (u ++ pat).take ((u ++ pat).length - pat.length) = u := by
  have h : (u ++ pat).length - pat.length = u.length := by
    simp [List.length_append]
  rw [h, List.take_left]

/-- `strip_suffix_of` succeeds exactly on texts of the form `r ++ pat`, and
then returns `r`: it removes exactly one trailing occurrence. -/
theorem strip_suffix_of_eq_some {pat t r : Str} :
    strip_suffix_of pat t = some r ↔ t = r ++ pat := by
  constructor
  · intro h
    have hs : List.IsSuffix pat t := by
      by_contra hns
      simp [strip_suffix_of, hns] at h
    obtain ⟨u, hu⟩ := hs
    have hu' : strip_suffix_of pat t = some u := by
      subst hu
      simp [strip_suffix_of, take_sub_length_append]
    rw [hu'] at h
    injection h with h
    subst h
    exact hu.symm
  · intro h
    subst h
    have hs : List.IsSuffix pat (r ++ pat) := ⟨r, rfl⟩
    simp [strip_suffix_of, hs, take_sub_length_append]

/-- `strip_suffix_of` fails exactly when the text does not end with the
pattern. -/
theorem strip_suffix_of_eq_none {pat t : Str} :
    strip_suffix_of pat t = none ↔ ¬ List.IsSuffix pat t := by
  unfold strip_suffix_of
  split <;> simp_all

/-- When the text decomposes as `r ++ p`, the working text is `r`. -/
theorem split_last_target_append {t p r : Str} (h : t = r ++ p) :
    split_last_target t p = r := by
  unfold split_last_target
  rw [strip_suffix_of_eq_some.mpr h]

/-- When the text does not end with the pattern, the working text is the
text itself. -/
theorem split_last_target_of_not_suffix {t p : Str} (h : ¬ List.IsSuffix p t) :
    split_last_target t p = t := by
  unfold split_last_target
  rw [strip_suffix_of_eq_none.mpr h]

/-- The working text is always a prefix of the input text. -/
theorem split_last_target_prefix_of_input (t p : Str) :
    List.IsPrefix (split_last_target t p) t := by
  unfold split_last_target
  cases h : strip_suffix_of p t with
  | none => exact List.prefix_rfl
  | some r => exact ⟨p, (strip_suffix_of_eq_some.mp h).symm⟩

/-! ### Unfolding equations for `split_fuel` -/

theorem split_fuel_nil (sep : Str) (f : Nat) : split_fuel sep f [] = [[]] := by
  cases f <;> rfl

theorem split_fuel_pos (sep : Str) (f : Nat) (c : Char) (rest : Str)
    (h : sep ≠ [] ∧ List.IsPrefix sep (c :: rest)) :
    split_fuel sep (f + 1) (c :: rest) =
      [] :: split_fuel sep f (rest.drop (sep.length - 1)) := by
  simp [split_fuel, h]

theorem split_fuel_neg (sep : Str) (f : Nat) (c : Char) (rest : Str)
    (h : ¬ (sep ≠ [] ∧ List.IsPrefix sep (c :: rest))) :
    split_fuel sep (f + 1) (c :: rest) =
      match split_fuel sep f rest with
      | [] => [[c]]
      | s :: ss => (c :: s) :: ss := by
  simp [split_fuel, h]

/-- A split never yields the empty list of segments. -/
theorem split_fuel_ne_nil (sep : Str) (f : Nat) (l : Str) : split_fuel sep f l ≠ [] := by
  cases f with
  | zero => cases l <;> simp [split_fuel]
  | succ f =>
    cases l with
    | nil => simp [split_fuel]
    | cons c rest =>
      by_cases h : sep ≠ [] ∧ List.IsPrefix sep (c :: rest)
      · rw [split_fuel_pos sep f c rest h]; simp
      · rw [split_fuel_neg sep f c rest h]
        cases split_fuel sep f rest <;> simp

theorem split_fuel_neg_cons (sep : Str) (f : Nat) (c : Char) (rest s : Str) (ss : List Str)
    (h : ¬ (sep ≠ [] ∧ List.IsPrefix sep (c :: rest)))
    (hr : split_fuel sep f rest = s :: ss) :
    split_fuel sep (f + 1) (c :: rest) = (c :: s) :: ss := by
  rw [split_fuel_neg sep f c rest h, hr]

/-- Any fuel at least the length of the text computes the same split. -/
theorem split_fuel_congr (sep : Str) :
    ∀ f g l, l.length ≤ f → l.length ≤ g → split_fuel sep f l = split_fuel sep g l := by
  intro f
  induction f with
  | zero =>
    intro g l h1 _
    have hl : l = [] := List.eq_nil_of_length_eq_zero (Nat.le_zero.mp h1)
    subst hl
    rw [split_fuel_nil, split_fuel_nil]
  | succ f ih =>
    intro g l h1 h2
    cases l with
    | nil => rw [split_fuel_nil, split_fuel_nil]
    | cons c rest =>
      cases g with
      | zero => simp at h2
      | succ g =>
        have hrest : rest.length ≤ f := by simp at h1; omega
        have hrest' : rest.length ≤ g := by simp at h2; omega
        by_cases h : sep ≠ [] ∧ List.IsPrefix sep (c :: rest)
        · rw [split_fuel_pos sep f c rest h, split_fuel_pos sep g c rest h]
          have hd : (rest.drop (sep.length - 1)).length ≤ f := by
            rw [List.length_drop]; omega
          have hd' : (rest.drop (sep.length - 1)).length ≤ g := by
            rw [List.length_drop]; omega
          rw [ih g _ hd hd']
        · cases hr : split_fuel sep f rest with
          | nil => exact absurd hr (split_fuel_ne_nil sep f rest)
          | cons s ss =>
            have hr' : split_fuel sep g rest = s :: ss := by
              rw [← ih g rest hrest hrest', hr]
            rw [split_fuel_neg_cons sep f c rest s ss h hr,
              split_fuel_neg_cons sep g c rest s ss h hr']

/-- A split that yields a single segment yields the whole text as it. -/
theorem split_fuel_eq_singleton (sep : Str) :
    ∀ f l s, l.length ≤ f → split_fuel sep f l = [s] → s = l := by
  intro f
  induction f with
  | zero =>
    intro l s h1 h2
    have hl : l = [] := List.eq_nil_of_length_eq_zero (Nat.le_zero.mp h1)
    subst hl
    rw [split_fuel_nil] at h2
    injection h2 with h2a _
    exact h2a.symm
  | succ f ih =>
    intro l s h1 h2
    cases l with
    | nil =>
      rw [split_fuel_nil] at h2
      injection h2 with h2a _
      exact h2a.symm
    | cons c rest =>
      have hrest : rest.length ≤ f := by simp at h1; omega
      by_cases h : sep ≠ [] ∧ List.IsPrefix sep (c :: rest)
      · rw [split_fuel_pos sep f c rest h] at h2
        injection h2 with _ h2b
        exact absurd h2b (split_fuel_ne_nil sep f _)
      · cases hr : split_fuel sep f rest with
        | nil => exact absurd hr (split_fuel_ne_nil sep f rest)
        | cons s' ss =>
          rw [split_fuel_neg_cons sep f c rest s' ss h hr] at h2
          injection h2 with h2a h2b
          subst h2b
          have hs' := ih rest s' hrest hr
          subst hs'
          exact h2a.symm

/-- Splitting a text with no occurrence of the (non-empty) pattern yields the
text as the single segment. -/
theorem split_fuel_no_match (sep : Str) (_hsep : sep ≠ []) :
    ∀ f l, ¬ List.IsInfix sep l → l.length ≤ f → split_fuel sep f l = [l] := by
  intro f
  induction f with
  | zero =>
    intro l _ h1
    have hl : l = [] := List.eq_nil_of_length_eq_zero (Nat.le_zero.mp h1)
    subst hl
    exact split_fuel_nil sep 0
  | succ f ih =>
    intro l hni h1
    cases l with
    | nil => exact split_fuel_nil sep _
    | cons c rest =>
      have hrest : rest.length ≤ f := by simp at h1; omega
      have h : ¬ (sep ≠ [] ∧ List.IsPrefix sep (c :: rest)) := by
        rintro ⟨-, hp⟩
        exact hni hp.isInfix
      have hr : split_fuel sep f rest = [rest] :=
        ih rest (fun hi => hni (List.infix_cons hi)) hrest
      rw [split_fuel_neg_cons sep f c rest rest [] h hr]

/-- Structure of a split by a non-empty pattern: its head is a prefix of the
text and every segment is an infix of the text. -/
theorem split_fuel_structure (sep : Str) (_hsep : sep ≠ []) :
    ∀ f l, l.length ≤ f →
      (∀ x ∈ split_fuel sep f l, List.IsInfix x l) ∧
      ∃ s ss, split_fuel sep f l = s :: ss ∧ List.IsPrefix s l := by
  intro f
  induction f with
  | zero =>
    intro l h1
    have hl : l = [] := List.eq_nil_of_length_eq_zero (Nat.le_zero.mp h1)
    subst hl
    rw [split_fuel_nil]
    refine ⟨?_, [], [], rfl, List.prefix_rfl⟩
    intro x hx
    simp at hx
    subst hx
    exact List.infix_rfl
  | succ f ih =>
    intro l h1
    cases l with
    | nil =>
      rw [split_fuel_nil]
      refine ⟨?_, [], [], rfl, List.prefix_rfl⟩
      intro x hx
      simp at hx
      subst hx
      exact List.infix_rfl
    | cons c rest =>
      have hrest : rest.length ≤ f := by simp at h1; omega
      by_cases h : sep ≠ [] ∧ List.IsPrefix sep (c :: rest)
      · rw [split_fuel_pos sep f c rest h]
        have hd : (rest.drop (sep.length - 1)).length ≤ f := by
          rw [List.length_drop]; omega
        obtain ⟨hinf, -, -, -, -⟩ := ih (rest.drop (sep.length - 1)) hd
        have hsuf : List.IsSuffix (rest.drop (sep.length - 1)) (c :: rest) :=
          (List.drop_suffix _ _).trans (List.suffix_cons c rest)
        constructor
        · intro x hx
          rcases List.mem_cons.mp hx with hx | hx
          · subst hx
            exact ⟨[], c :: rest, by simp⟩
          · exact (hinf x hx).trans hsuf.isInfix
        · exact ⟨[], _, rfl, List.nil_prefix⟩
      · cases hr : split_fuel sep f rest with
        | nil => exact absurd hr (split_fuel_ne_nil sep f rest)
        | cons s' ss' =>
          rw [split_fuel_neg_cons sep f c rest s' ss' h hr]
          obtain ⟨hinf, s'', ss'', heq, hpre⟩ := ih rest hrest
          rw [hr] at heq
          injection heq with he1 he2
          subst he1
          subst he2
          constructor
          · intro x hx
            rcases List.mem_cons.mp hx with hx | hx
            · subst hx
              obtain ⟨u, hu⟩ := hpre
              exact List.IsPrefix.isInfix ⟨u, by rw [List.cons_append, hu]⟩
            · have hx' : x ∈ split_fuel sep f rest := by
                rw [hr]; exact List.mem_cons_of_mem _ hx
              exact List.infix_cons (hinf x hx')
          · refine ⟨c :: s', ss', rfl, ?_⟩
            obtain ⟨u, hu⟩ := hpre
            exact ⟨u, by rw [List.cons_append, hu]⟩

/-- A pattern has no self-overlap when no non-empty proper suffix of it is
also one of its prefixes (no non-trivial border).  Every single-character
pattern is border-free; `"aa"` is not. -/
def borderFree (p : Str) : Prop :=
  ∀ k, k < p.length → 0 < k → ¬ List.IsPrefix (p.drop k) p

instance (p : Str) : Decidable (borderFree p) :=
  inferInstanceAs (Decidable (∀ k, k < p.length → 0 < k → ¬ List.IsPrefix (p.drop k) p))

theorem getLast?_cons_of_ne_nil {α : Type} (x : α) {L : List α} (h : L ≠ []) :
    (x :: L).getLast? = L.getLast? := by
  cases L with
  | nil => exact absurd rfl h
  | cons b l => exact List.getLast?_cons_cons

/-- If the last segment of a split by a non-empty pattern is empty, the text
is empty or ends with the pattern. -/
theorem split_fuel_getLast_eq_nil (sep : Str) (_hsep : sep ≠ []) :
    ∀ f l, l.length ≤ f → (split_fuel sep f l).getLast? = some [] →
      l = [] ∨ List.IsSuffix sep l := by
  intro f
  induction f with
  | zero =>
    intro l h1 _
    exact Or.inl (List.eq_nil_of_length_eq_zero (Nat.le_zero.mp h1))
  | succ f ih =>
    intro l h1 hg
    cases l with
    | nil => exact Or.inl rfl
    | cons c rest =>
      right
      have hrest : rest.length ≤ f := by simp at h1; omega
      by_cases h : sep ≠ [] ∧ List.IsPrefix sep (c :: rest)
      · rw [split_fuel_pos sep f c rest h,
          getLast?_cons_of_ne_nil [] (split_fuel_ne_nil sep f _)] at hg
        have hd : (rest.drop (sep.length - 1)).length ≤ f := by
          rw [List.length_drop]; omega
        rcases ih (rest.drop (sep.length - 1)) hd hg with h0 | hs
        · have hsep1 : 1 ≤ sep.length := by
            cases hse : sep with
            | nil => exact absurd hse h.1
            | cons d ds => simp
          have hlen0 : rest.length - (sep.length - 1) = 0 := by
            have hld := List.length_drop (sep.length - 1) rest
            rw [h0] at hld
            simpa using hld.symm
          have hle : (c :: rest).length ≤ sep.length := by
            simp [List.length_cons]; omega
          have heq : sep = c :: rest :=
            h.2.eq_of_length (Nat.le_antisymm h.2.length_le hle)
          rw [heq]
        · exact hs.trans ((List.drop_suffix _ _).trans (List.suffix_cons c rest))
      · cases hr : split_fuel sep f rest with
        | nil => exact absurd hr (split_fuel_ne_nil sep f rest)
        | cons s' ss' =>
          rw [split_fuel_neg_cons sep f c rest s' ss' h hr] at hg
          cases ss' with
          | nil => simp at hg
          | cons y ys =>
            rw [List.getLast?_cons_cons] at hg
            have hg' : (split_fuel sep f rest).getLast? = some [] := by
              rw [hr, List.getLast?_cons_cons]
              exact hg
            rcases ih rest hrest hg' with h0 | hs
            · subst h0
              rw [split_fuel_nil] at hr
              injection hr with _ hr2
              exact absurd hr2.symm (List.cons_ne_nil y ys)
            · exact hs.trans (List.suffix_cons c rest)

/-- For a border-free non-empty pattern, a text ending with the pattern
splits with an empty last segment: the left-to-right scan always reaches the
trailing occurrence. -/
theorem split_fuel_getLast_of_suffix (sep : Str) (hsep : sep ≠ []) (hb : borderFree sep) :
    ∀ f l, List.IsSuffix sep l → l.length ≤ f →
      (split_fuel sep f l).getLast? = some [] := by
  intro f
  induction f with
  | zero =>
    intro l hs h1
    have hl : l = [] := List.eq_nil_of_length_eq_zero (Nat.le_zero.mp h1)
    subst hl
    exact absurd (List.suffix_nil.mp hs) hsep
  | succ f ih =>
    intro l hsuf h1
    cases l with
    | nil => exact absurd (List.suffix_nil.mp hsuf) hsep
    | cons c rest =>
      have hrest : rest.length ≤ f := by simp at h1; omega
      have hsep1 : 1 ≤ sep.length := by
        cases hse : sep with
        | nil => exact absurd hse hsep
        | cons d ds => simp
      by_cases h : sep ≠ [] ∧ List.IsPrefix sep (c :: rest)
      · rw [split_fuel_pos sep f c rest h,
          getLast?_cons_of_ne_nil [] (split_fuel_ne_nil sep f _)]
        obtain ⟨u, hu⟩ := h.2
        have hdrop : rest.drop (sep.length - 1) = u := by
          have e1 : (c :: rest).drop sep.length = u := by
            rw [← hu]; exact List.drop_left sep u
          cases hse : sep with
          | nil => exact absurd hse hsep
          | cons d ds =>
            rw [hse, List.length_cons, List.drop_succ_cons] at e1
            simpa [hse] using e1
        rw [hdrop]
        by_cases hu0 : u = []
        · subst hu0
          rw [split_fuel_nil]
          rfl
        · have hupos : 0 < u.length := List.length_pos.mpr hu0
          rcases Nat.lt_or_ge u.length sep.length with hlt | hge
          · exfalso
            obtain ⟨v, hv⟩ := hsuf
            have hvu : v ++ sep = sep ++ u := by rw [hv, hu]
            have hklen : v.length = u.length := by
              have hlen := congrArg List.length hvu
              simp [List.length_append] at hlen
              omega
            have e1 : (v ++ sep).drop v.length = sep := List.drop_left v sep
            have e2 : (sep ++ u).drop v.length = sep.drop v.length ++ u :=
              List.drop_append_of_le_length (by omega)
            rw [hvu, e2] at e1
            rw [hklen] at e1
            exact hb u.length hlt hupos ⟨u, e1⟩
          · have hsu : List.IsSuffix sep u := by
              obtain ⟨v, hv⟩ := hsuf
              have hvu : v ++ sep = sep ++ u := by rw [hv, hu]
              have hklen : v.length = u.length := by
                have hlen := congrArg List.length hvu
                simp [List.length_append] at hlen
                omega
              have e1 : (v ++ sep).drop sep.length = v.drop sep.length ++ sep :=
                List.drop_append_of_le_length (by omega)
              have e2 : (sep ++ u).drop sep.length = u := List.drop_left sep u
              rw [hvu, e2] at e1
              exact ⟨v.drop sep.length, e1.symm⟩
            have hulen : u.length ≤ f := by
              have hlen := congrArg List.length hu
              simp [List.length_append] at hlen
              omega
            exact ih u hsu hulen
      · push_neg at h
        have hnp : ¬ List.IsPrefix sep (c :: rest) := h hsep
        have hlt : sep.length < (c :: rest).length := by
          rcases Nat.lt_or_ge sep.length (c :: rest).length with hlt | hge
          · exact hlt
          · exfalso
            have heq : sep = c :: rest :=
              hsuf.eq_of_length (Nat.le_antisymm hsuf.length_le hge)
            exact hnp (heq ▸ List.prefix_rfl)
        have hsr : List.IsSuffix sep rest := by
          obtain ⟨v, hv⟩ := hsuf
          cases v with
          | nil =>
            simp at hv
            rw [hv] at hlt
            exact absurd hlt (lt_irrefl _)
          | cons d v' =>
            injection hv with _ hv2
            exact ⟨v', hv2⟩
        cases hr : split_fuel sep f rest with
        | nil => exact absurd hr (split_fuel_ne_nil sep f rest)
        | cons s' ss' =>
          have hcond : ¬ (sep ≠ [] ∧ List.IsPrefix sep (c :: rest)) := by
            rintro ⟨-, hp⟩
            exact hnp hp
          rw [split_fuel_neg_cons sep f c rest s' ss' hcond hr]
          have hgl : (split_fuel sep f rest).getLast? = some [] := ih rest hsr hrest
          rw [hr] at hgl
          cases ss' with
          | nil =>
            have hs0 : s' = ([] : Str) := by simpa using hgl
            have hsr' : s' = rest := split_fuel_eq_singleton sep f rest s' hrest hr
            rw [hs0] at hsr'
            rw [← hsr'] at hsr
            exact absurd (List.suffix_nil.mp hsr) hsep
          | cons y ys =>
            rw [getLast?_cons_of_ne_nil (c :: s') (List.cons_ne_nil y ys)]
            rw [List.getLast?_cons_cons] at hgl
            exact hgl

/-! ### Lifting to `split_pat` and `split_last` -/

/-- Splitting never produces zero segments, for any pattern. -/
theorem split_pat_ne_nil (sep l : Str) : split_pat sep l ≠ [] := by
  unfold split_pat
  split
  · simp
  · exact split_fuel_ne_nil sep l.length l

theorem split_pat_eq_fuel {sep : Str} (hsep : sep ≠ []) (l : Str) :
    split_pat sep l = split_fuel sep l.length l := by
  simp [split_pat, hsep]

/-- `split_last` succeeds with `s` exactly when `s` is the last segment of
the split of the working text. -/
theorem split_last_eq_ok_iff {t p s : Str} :
    split_last t p = Except.ok s ↔
      (split_pat p (split_last_target t p)).getLast? = some s := by
  unfold split_last
  cases hg : (split_pat p (split_last_target t p)).getLast? with
  | none => simp
  | some x => simp

/-- `split_last` always succeeds. -/
theorem split_last_is_ok (t p : Str) : ∃ s, split_last t p = Except.ok s := by
  cases hg : (split_pat p (split_last_target t p)).getLast? with
  | none => exact absurd (List.getLast?_eq_none_iff.mp hg) (split_pat_ne_nil p _)
  | some x => exact ⟨x, split_last_eq_ok_iff.mpr hg⟩

/-- On a text with no occurrence of the (non-empty) pattern, `split_last`
is the identity. -/
theorem split_last_no_occurrence {t p : Str} (hp : p ≠ []) (h : ¬ List.IsInfix p t) :
    split_last t p = Except.ok t := by
  have hns : ¬ List.IsSuffix p t := fun hs => h hs.isInfix
  rw [split_last_eq_ok_iff, split_last_target_of_not_suffix hns, split_pat_eq_fuel hp,
    split_fuel_no_match p hp t.length t h le_rfl]
  rfl

/-! ### The claims -/

/-- Claim C1: for each documented concrete scenario, `split_last` returns the
stated output as an `Ok` result: `"test"` with `'/'` yields `"test"`;
`"test/"` with `"/"` yields `"test"`; `"/test"` with `'/'` yields `"test"`;
`"/test/"` with `'/'` yields `"test"`; `"/some/long//test/"` with `'/'`
yields `"test"`; `"some/simple/test/with_trailing/"` with `'/'` yields
`"with_trailing"`. -/
theorem split_last_documented_scenarios :
    split_last (chars "test") (chars "/") = Except.ok (chars "test") ∧
    split_last (chars "test/") (chars "/") = Except.ok (chars "test") ∧
    split_last (chars "/test") (chars "/") = Except.ok (chars "test") ∧
    split_last (chars "/test/") (chars "/") = Except.ok (chars "test") ∧
    split_last (chars "/some/long//test/") (chars "/") = Except.ok (chars "test") ∧
    split_last (chars "some/simple/test/with_trailing/") (chars "/") =
      Except.ok (chars "with_trailing") := by
  decide

/-- Claim C2 counterexample: on `"a//"` with pattern `"/"`, the text contains
the non-delimiter character `a`, yet `split_last` successfully returns the
empty segment, not the last non-empty one. -/
theorem split_last_nonempty_text_empty_result :
    split_last (chars "a//") (chars "/") = Except.ok (chars "") ∧
    'a' ∈ chars "a//" ∧ 'a' ∉ chars "/" := by
  decide

/-- Claim C2 (amended): the successful result of `split_last` is the last
segment of the trailing-stripped text; it is empty only when the text is
empty, is exactly the pattern, or ends with two consecutive occurrences of
the pattern — so it can be empty even when the text contains a non-delimiter
character (e.g. `"a//"` with `'/'`). -/
theorem split_last_empty_result_cases {t p s : Str}
    (h : split_last t p = Except.ok s) (hs : s = []) :
    t = [] ∨ t = p ∨ List.IsSuffix (p ++ p) t := by
  subst hs
  by_cases hp : p = []
  · subst hp
    right; right
    exact List.nil_suffix
  · have hg := split_last_eq_ok_iff.mp h
    rw [split_pat_eq_fuel hp] at hg
    have hcases := split_fuel_getLast_eq_nil p hp (split_last_target t p).length
      (split_last_target t p) le_rfl hg
    cases hstrip : strip_suffix_of p t with
    | none =>
      have htar : split_last_target t p = t := by
        unfold split_last_target
        rw [hstrip]
      rw [htar] at hcases
      rcases hcases with h0 | hsx
      · exact Or.inl h0
      · exact absurd hsx (strip_suffix_of_eq_none.mp hstrip)
    | some r =>
      have ht : t = r ++ p := strip_suffix_of_eq_some.mp hstrip
      have htar : split_last_target t p = r := split_last_target_append ht
      rw [htar] at hcases
      rcases hcases with h0 | hsx
      · subst h0
        right; left
        simpa using ht
      · right; right
        obtain ⟨u, hu⟩ := hsx
        exact ⟨u, by rw [← List.append_assoc, hu, ← ht]⟩

/-- Witness for the amended C2 at the concrete input `"a//"`, `"/"`. -/
theorem split_last_empty_result_cases_witness :
    chars "a//" = [] ∨ chars "a//" = chars "/" ∨
      List.IsSuffix (chars "/" ++ chars "/") (chars "a//") :=
  @split_last_empty_result_cases (chars "a//") (chars "/") (chars "")
    (by decide) (by decide)

/-- Claim C3: for all non-empty patterns and texts containing no occurrence
of the pattern, `split_last` returns the input text unchanged. -/
theorem split_last_of_no_occurrence {t p : Str} (hp : p ≠ [])
    (h : ¬ List.IsInfix p t) : split_last t p = Except.ok t :=
  split_last_no_occurrence hp h

/-- Witness for C3 at the concrete input `"abc"`, `"/"`. -/
theorem split_last_of_no_occurrence_witness :
    split_last (chars "abc") (chars "/") = Except.ok (chars "abc") :=
  @split_last_of_no_occurrence (chars "abc") (chars "/") (by decide) (by decide)

/-- Claim C4: `split_last` is total (a Lean function) and, with a non-empty
pattern, a successful result is always a contiguous substring (an infix) of
the original input text. -/
theorem split_last_result_substring {t p s : Str} (hp : p ≠ [])
    (h : split_last t p = Except.ok s) : List.IsInfix s t := by
  have hg := split_last_eq_ok_iff.mp h
  rw [split_pat_eq_fuel hp] at hg
  obtain ⟨hinf, -⟩ := split_fuel_structure p hp (split_last_target t p).length
    (split_last_target t p) le_rfl
  have hmem : s ∈ split_fuel p (split_last_target t p).length (split_last_target t p) :=
    List.mem_of_getLast?_eq_some hg
  exact (hinf s hmem).trans (split_last_target_prefix_of_input t p).isInfix

/-- Witness for C4 at the concrete input `"a/b/c"`, `"/"`. -/
theorem split_last_result_substring_witness :
    List.IsInfix (chars "c") (chars "a/b/c") :=
  @split_last_result_substring (chars "a/b/c") (chars "/") (chars "c")
    (by decide) (by decide)

/-- Claim C5: before splitting, `split_last` removes exactly one trailing
occurrence of the pattern when the text ends with it, and otherwise leaves
the text unchanged; repeated trailing occurrences are not all stripped:
`"a//"` with `"/"` becomes `"a/"` before the split. -/
theorem split_last_target_strips_one (t p : Str) :
    (List.IsSuffix p t → ∃ r, split_last_target t p = r ∧ r ++ p = t) ∧
    (¬ List.IsSuffix p t → split_last_target t p = t) ∧
    split_last_target (chars "a//") (chars "/") = chars "a/" := by
  refine ⟨?_, split_last_target_of_not_suffix, by decide⟩
  intro hs
  obtain ⟨r, hr⟩ := hs
  exact ⟨r, split_last_target_append hr.symm, hr⟩

/-- Witness for C5 at the concrete input `"b//"`, `"/"`. -/
theorem split_last_target_strips_one_witness :
    ∃ r, split_last_target (chars "b//") (chars "/") = r ∧ r ++ chars "/" = chars "b//" :=
  (split_last_target_strips_one (chars "b//") (chars "/")).1 (by decide)

/-- Claim C6: a `SplitError` is returned iff splitting the working text
produces zero segments, and then carries exactly the message
`"Failed to split"`; since splitting always yields at least one segment,
the error branch is unreachable and `split_last` returns `Ok` on every
input. -/
theorem split_last_error_unreachable (t p : Str) (e : SplitError) :
    (split_last t p = Except.error e ↔
      (split_pat p (split_last_target t p) = [] ∧ e = ⟨"Failed to split"⟩)) ∧
    split_pat p (split_last_target t p) ≠ [] ∧
    ∃ s, split_last t p = Except.ok s := by
  refine ⟨⟨?_, ?_⟩, split_pat_ne_nil p _, split_last_is_ok t p⟩
  · intro he
    obtain ⟨s, hs⟩ := split_last_is_ok t p
    rw [hs] at he
    exact absurd he (by simp)
  · rintro ⟨hnil, -⟩
    exact absurd hnil (split_pat_ne_nil p _)

/-- Witness for C6 at the concrete input `"x/y"`, `"/"`. -/
theorem split_last_error_unreachable_witness :
    ∃ s, split_last (chars "x/y") (chars "/") = Except.ok s :=
  (split_last_error_unreachable (chars "x/y") (chars "/") ⟨"Failed to split"⟩).2.2

/-- Claim C7: reapplying `split_last`, with the same non-empty pattern, to
its own successful output is the identity whenever that output contains no
further occurrence of the pattern. -/
theorem split_last_idempotent_on_output {t p r : Str} (hp : p ≠ [])
    (_h : split_last t p = Except.ok r) (hr : ¬ List.IsInfix p r) :
    split_last r p = Except.ok r :=
  split_last_no_occurrence hp hr

/-- Witness for C7 at the concrete input `"a/b"`, `"/"`, output `"b"`. -/
theorem split_last_idempotent_on_output_witness :
    split_last (chars "b") (chars "/") = Except.ok (chars "b") :=
  @split_last_idempotent_on_output (chars "a/b") (chars "/") (chars "b")
    (by decide) (by decide) (by decide)

/-- Claim C8: on the empty input text, with any pattern (the empty pattern
included), `split_last` returns `Ok("")` — the single empty segment produced
by splitting an empty string — and not a `SplitError`. -/
theorem split_last_empty_text (p : Str) : split_last [] p = Except.ok [] := by
  by_cases hp : p = []
  · subst hp
    decide
  · have hns : ¬ List.IsSuffix p [] := fun hs => hp (List.suffix_nil.mp hs)
    rw [split_last_eq_ok_iff, split_last_target_of_not_suffix hns,
      split_pat_eq_fuel hp, split_fuel_nil]
    rfl

/-- Claim C9 counterexample: the diagnostic (`Debug`) rendering does not
carry the source location of the failing operation (the `ok_or_else` raise
site at line 96): `file!()` and `line!()` expand inside the `Debug`
implementation itself, so the rendered location is the fixed line 53 for
every error value. -/
theorem SplitError_debug_not_raise_site :
    SplitError.debugFmt ⟨"Failed to split"⟩ ≠ SplitError.debugSpec ⟨"Failed to split"⟩ ∧
    SplitError.debugFmt ⟨"Failed to split"⟩ =
      "\x7b file: src/lib.rs, line: 53, error: Failed to split\x7d" := by
  constructor
  · decide
  · rfl

/-- Claim C9 (amended): `SplitError` has two renderings: the user-facing
rendering emits exactly the stored message verbatim, and the diagnostic
rendering emits the message together with a fixed source file and line — the
location of the `Debug` implementation (`src/lib.rs`, line 53) — not the
location where the error was raised. -/
theorem SplitError_renderings (e : SplitError) :
    SplitError.display e = e.msg ∧
    SplitError.debugFmt e =
      "\x7b file: src/lib.rs, line: 53, error: " ++ SplitError.display e ++ "\x7d" :=
  ⟨rfl, rfl⟩

/-- Claim C10 counterexample: `"aaaaa"` ends with two consecutive occurrences
of the pattern `"aa"`, yet `split_last` returns `Ok("a")`, not `Ok("")`: the
left-to-right scan of the stripped text `"aaa"` consumes a match at the start
and leaves the non-empty final segment `"a"`. -/
theorem split_last_double_trailing_not_always_empty :
    List.IsSuffix (chars "aa" ++ chars "aa") (chars "aaaaa") ∧
    split_last (chars "aaaaa") (chars "aa") = Except.ok (chars "a") ∧
    chars "a" ≠ chars "" := by
  decide

/-- Claim C10 (amended): for a non-empty pattern that cannot overlap itself
(border-free, e.g. any single-character pattern such as `'/'`), whenever the
text ends with two or more consecutive occurrences of the pattern, only one
trailing occurrence is stripped, the last segment of the split is empty, and
the empty string is returned as the successful result. -/
theorem split_last_double_trailing_empty {t p : Str} (hp : p ≠ [])
    (hb : borderFree p) (hs : List.IsSuffix (p ++ p) t) :
    split_last t p = Except.ok [] := by
  obtain ⟨u, hu⟩ := hs
  have ht : t = (u ++ p) ++ p := by rw [← hu, List.append_assoc]
  rw [split_last_eq_ok_iff, split_last_target_append ht, split_pat_eq_fuel hp]
  exact split_fuel_getLast_of_suffix p hp hb (u ++ p).length (u ++ p) ⟨u, rfl⟩ le_rfl

/-- Witness for the amended C10 at the concrete input `"a//"`, `"/"`. -/
theorem split_last_double_trailing_empty_witness :
    split_last (chars "a//") (chars "/") = Except.ok [] :=
  @split_last_double_trailing_empty (chars "a//") (chars "/")
    (by decide) (by decide) (by decide)
